import Mathlib

/-
Verification of the Sankey layout/aggregation engine (sankey_app.py).

The engine is embedded shallowly:
* edge rows become a `List Edge` with rational values;
* `pd.unique(df[["source","target"]].values.ravel())` becomes
  `labelsOf` (first-appearance order over the row-major flattening);
* the recursive `assign_tier` (which mutates a `tiers` dict and recurses
  into children) becomes a fuel-indexed function on `String → Option Nat`
  returning `none` when the fuel bound is exhausted;
* pandas sums become list sums over filtered edges;
* Python's float division (numpy semantics: `0/0 = nan`, `x/0 = inf`)
  is modelled by `PyF`, and f-string fixed-point formatting by
  `formatFixed` over `ℚ` with round-half-to-even (the rounding of
  Python's `round` and of IEEE formatting).
-/

namespace Sankey

structure Edge where
  src : String
  tgt : String
  val : ℚ
deriving DecidableEq, Repr

instance : Inhabited Edge := ⟨⟨"", "", 0⟩⟩

/-- Row-major flattening of the (source, target) columns:
`df[["source","target"]].values.ravel()`. -/
def ravel (edges : List Edge) : List String :=
  edges.flatMap (fun e => [e.src, e.tgt])

/-- First-appearance deduplication, as `pd.unique`. The first argument is
the set of labels already seen. -/
def dedupFirst : List String → List String → List String
  | _, [] => []
  | seen, x :: xs =>
    if x ∈ seen then dedupFirst seen xs else x :: dedupFirst (x :: seen) xs

/-- `labels = pd.unique(df[["source","target"]].values.ravel())`. -/
def labelsOf (edges : List Edge) : List String :=
  dedupFirst [] (ravel edges)

/-- `roots = [lbl for lbl in labels if lbl not in df['target'].values]`. -/
def rootsOf (edges : List Edge) : List String :=
  (labelsOf edges).filter (fun l => decide (l ∉ edges.map Edge.tgt))

/-- The `tiers` dict, holding the labels already assigned a tier.  The
Python dict is initialised with `None` everywhere; here a label that is
absent stands for `None`. -/
abbrev Tiers := List (String × Nat)

/-- Dict lookup: `tiers[lbl]` (`none` models `None`). -/
def tget : Tiers → String → Option Nat
  | [], _ => none
  | p :: rest, k => if p.1 = k then some p.2 else tget rest k

/-- Dict assignment `tiers[lbl] = v`. -/
def tset : Tiers → String → Nat → Tiers
  | [], k, v => [(k, v)]
  | p :: rest, k, v => if p.1 = k then (k, v) :: rest else p :: tset rest k v

/-- `df[df['source']==lbl]['target']`, in row order. -/
def childrenOf (edges : List Edge) (lbl : String) : List String :=
  (edges.filter (fun e => decide (e.src = lbl))).map Edge.tgt

/-- The recursive tier propagation `assign_tier(lbl, current_tier)`:
if the tier is unset or strictly smaller than the proposal, set it and
propagate `current_tier + 1` to every child.  The Python source has no
recursion bound; the extra `fuel` argument makes the recursion total and
returns `none` exactly when the source would still be recursing after
`fuel` nested calls. -/
def assign_tier (edges : List Edge) : Nat → String → Nat → Tiers → Option Tiers
  | 0, _, _, _ => none
  | fuel+1, lbl, c, t =>
    match tget t lbl with
    | none =>
      (childrenOf edges lbl).foldl
        (fun a ch => a.bind (assign_tier edges fuel ch (c+1))) (some (tset t lbl c))
    | some v =>
      if v < c then
        (childrenOf edges lbl).foldl
          (fun a ch => a.bind (assign_tier edges fuel ch (c+1))) (some (tset t lbl c))
      else some t

/-- `for root in roots: assign_tier(root, 0)`, starting from the
all-`None` dict. -/
def computeTiers (edges : List Edge) (fuel : Nat) : Option Tiers :=
  (rootsOf edges).foldl
    (fun a r => a.bind (assign_tier edges fuel r 0)) (some [])

/-- Tier of a single label after the root loop. -/
def tierAt (edges : List Edge) (fuel : Nat) (lbl : String) : Option Nat :=
  match computeTiers edges fuel with
  | none => none
  | some t => tget t lbl

/-- Collect a list of optional tiers; `none` when any entry is `None`
(Python's `max` over a dict containing `None` raises). -/
def seqOpt : List (Option Nat) → Option (List Nat)
  | [] => some []
  | none :: _ => none
  | some v :: rest => (seqOpt rest).map (fun vs => v :: vs)

/-- The tier of every label, in builder order. -/
def tierListOf (edges : List Edge) (fuel : Nat) : Option (List Nat) :=
  match computeTiers edges fuel with
  | none => none
  | some t => seqOpt ((labelsOf edges).map (tget t))

/-- `max(tiers.values())` of a nonempty all-assigned dict. -/
def maxTierList : List Nat → Option Nat
  | [] => none
  | v :: vs => some (vs.foldl max v)

def maxTierOpt (edges : List Edge) (fuel : Nat) : Option Nat :=
  (tierListOf edges fuel).bind maxTierList

/-- `x = [tiers[lbl]/max_tier if max_tier > 0 else 0.5 for lbl in labels]`. -/
def xPosOf (edges : List Edge) (fuel : Nat) : Option (List ℚ) :=
  match tierListOf edges fuel, maxTierOpt edges fuel with
  | some tl, some m => some (tl.map (fun v => if 0 < m then (v : ℚ) / (m : ℚ) else 1/2))
  | _, _ => none

/-- Vertical band of a tier: `tier_top = 1 - tier / (max_tier + 1)`. -/
def bandTop (v m : Nat) : ℚ := 1 - (v : ℚ) / ((m : ℚ) + 1)

/-- `tier_bottom = 1 - (tier + 1) / (max_tier + 1)`. -/
def bandBot (v m : Nat) : ℚ := 1 - ((v : ℚ) + 1) / ((m : ℚ) + 1)

/-- `margin = 0.05 * (tier_top - tier_bottom)`. -/
def marginOf (v m : Nat) : ℚ := (5 / 100) * (bandTop v m - bandBot v m)

/-- `step = ((tier_top - tier_bottom) - 2*margin) / (count - 1)`. -/
def stepOf (v m cnt : Nat) : ℚ :=
  ((bandTop v m - bandBot v m) - 2 * marginOf v m) / ((cnt : ℚ) - 1)

/-- The indices (in builder order) of the nodes on tier `v`:
`tier_groups[v]`, built by appending index `i` while scanning `labels`. -/
def groupIdx (tl : List Nat) (v : Nat) : List Nat :=
  (List.range tl.length).filter (fun i => decide (tl.getD i 0 = v))

/-- Position of the first occurrence of a number in a list (the `j` of
`for j, idx in enumerate(indices)` for a duplicate-free group). -/
def posOfNat (i : Nat) : List Nat → Nat
  | [] => 0
  | x :: xs => if x = i then 0 else posOfNat i xs + 1

/-- The y coordinate written into `y[i]` by the tier-group loop. -/
def yAt (tl : List Nat) (m : Nat) (i : Nat) : ℚ :=
  let v := tl.getD i 0
  let g := groupIdx tl v
  if g.length = 1 then (bandTop v m + bandBot v m) / 2
  else bandBot v m + marginOf v m + (posOfNat i g : ℚ) * stepOf v m g.length

/-- The whole `y` array. -/
def yPos (tl : List Nat) (m : Nat) : List ℚ :=
  (List.range tl.length).map (yAt tl m)

/-- Sum of the `value` column of a filtered row set (`.sum()`, 0 when
empty). -/
def sumVals (l : List Edge) : ℚ := (l.map Edge.val).sum

/-- `df[df["target"]==lbl]["value"].sum()`. -/
def inboundSum (edges : List Edge) (lbl : String) : ℚ :=
  sumVals (edges.filter (fun e => decide (e.tgt = lbl)))

/-- `df[df["source"]==lbl]["value"].sum()`. -/
def outboundSum (edges : List Edge) (lbl : String) : ℚ :=
  sumVals (edges.filter (fun e => decide (e.src = lbl)))

/-- `val = inbound_sum or outbound_sum`: Python's `or` keeps the first
operand unless it is falsy (numerically zero). -/
def aggValue (edges : List Edge) (lbl : String) : ℚ :=
  if inboundSum edges lbl = 0 then outboundSum edges lbl else inboundSum edges lbl

/-- `tier0_nodes = [lbl for lbl, t in tiers.items() if t == 0]`. -/
def tier0Nodes (labels : List String) (t : Tiers) : List String :=
  labels.filter (fun l => decide (tget t l = some 0))

/-- `tier0_sum = df[df['source'].isin(tier0_nodes)]['value'].sum()`. -/
def tier0Sum (edges : List Edge) (labels : List String) (t : Tiers) : ℚ :=
  sumVals (edges.filter (fun e => decide (e.src ∈ tier0Nodes labels t)))

/-- Result of a Python float computation: a finite value, `nan`, or a
signed infinity (numpy division semantics). -/
inductive PyF where
  | num (q : ℚ)
  | nan
  | inf
  | ninf
deriving DecidableEq, Repr

/-- numpy float division: `0/0 = nan`, `a/0 = ±inf` for `a ≠ 0`. -/
def pyDiv (a b : ℚ) : PyF :=
  if b = 0 then (if a = 0 then .nan else if 0 < a then .inf else .ninf)
  else .num (a / b)

/-- Multiplication by a positive finite constant preserves nan/inf. -/
def pyMul (x : PyF) (c : ℚ) : PyF :=
  match x with
  | .num q => .num (q * c)
  | y => y

/-- Round half to even, the rounding of Python's builtin `round` (and of
IEEE-754 formatting) on exactly representable values. -/
def roundHalfEven (q : ℚ) : ℤ :=
  let f := ⌊q⌋
  let r := q - (f : ℚ)
  if r < 1/2 then f
  else if 1/2 < r then f + 1
  else if f % 2 = 0 then f else f + 1

/-- Pad a digit string on the left with zeros up to width `d`. -/
def padZeros (d : Nat) (s : String) : String :=
  if s.length < d then String.mk (List.replicate (d - s.length) '0') ++ s else s

/-- Fixed-point decimal formatting `f"{q:.{d}f}"` of a finite value. -/
def formatFixed (q : ℚ) (d : Nat) : String :=
  let scaled : ℤ := roundHalfEven (q * (10 : ℚ) ^ d)
  let sign := if scaled < 0 then "-" else ""
  let n : Nat := scaled.natAbs
  if d = 0 then sign ++ toString n
  else sign ++ toString (n / 10 ^ d) ++ "." ++ padZeros d (toString (n % 10 ^ d))

/-- `f"{x:.{d}f}"` on a Python float, including the non-finite cases. -/
def pyFormatFixed (x : PyF) (d : Nat) : String :=
  match x with
  | .num q => formatFixed q d
  | .nan => "nan"
  | .inf => "inf"
  | .ninf => "-inf"

/-- Insert a comma after every third character of a reversed digit
list: the grouping of `f"{n:,}"`. -/
def group3 : List Char → List Char
  | a :: b :: c :: d :: rest => a :: b :: c :: ',' :: group3 (d :: rest)
  | l => l

def commaFmtNat (n : Nat) : String :=
  String.mk (group3 (toString n).data.reverse).reverse

def commaFmtInt (z : ℤ) : String :=
  (if z < 0 then "-" else "") ++ commaFmtNat z.natAbs

/-- `round(val/round_factor)*round_factor`. -/
def displayedRounded (v : ℚ) (rf : Nat) : ℤ :=
  roundHalfEven (v / (rf : ℚ)) * (rf : ℤ)

/-- Values mode: `f"{round(val/round_factor)*round_factor:,} {units}"`. -/
def valuesText (v : ℚ) (rf : Nat) (units : String) : String :=
  commaFmtInt (displayedRounded v rf) ++ " " ++ units

/-- Percentages mode: `f"{val/tier0_sum*100:.{percent_format}f}%"`. -/
def percentText (v t0 : ℚ) (d : Nat) : String :=
  pyFormatFixed (pyMul (pyDiv v t0) 100) d ++ "%"

/-- The per-node `val_text` string. -/
def valTextOf (edges : List Edge) (labels : List String) (t : Tiers)
    (displayMode : String) (rf : Nat) (d : Nat) (units : String)
    (lbl : String) : String :=
  if displayMode = "Values" then valuesText (aggValue edges lbl) rf units
  else percentText (aggValue edges lbl) (tier0Sum edges labels t) d

/-- `f"{lbl}\n({val_text})"`. -/
def nodeLabelOf (edges : List Edge) (labels : List String) (t : Tiers)
    (displayMode : String) (rf : Nat) (d : Nat) (units : String)
    (lbl : String) : String :=
  lbl ++ "\n(" ++ valTextOf edges labels t displayMode rf d units lbl ++ ")"

/-- Percent-mode `val_text` of one node, through the whole pipeline. -/
def pctTextAt (edges : List Edge) (fuel : Nat) (d : Nat) (lbl : String) :
    Option String :=
  match computeTiers edges fuel with
  | none => none
  | some t => some (percentText (aggValue edges lbl) (tier0Sum edges (labelsOf edges) t) d)

/-- `tier0_sum` through the whole pipeline. -/
def tier0SumAt (edges : List Edge) (fuel : Nat) : Option ℚ :=
  match computeTiers edges fuel with
  | none => none
  | some t => some (tier0Sum edges (labelsOf edges) t)

/-- `node_color_list = [palette[i % len(palette)] for i in range(len(labels))]`. -/
def nodeColors (palette : List String) (n : Nat) : List String :=
  (List.range n).map (fun i => palette.getD (i % palette.length) "")

/-- `label_idx[lbl]`: position of a label in the duplicate-free builder
order. -/
def posOf (a : String) : List String → Nat
  | [] => 0
  | x :: xs => if x = a then 0 else posOf a xs + 1

/-- One link per edge row, in row order:
`source=[label_idx[s] ...], target=[label_idx[t] ...], value=df["value"]`. -/
def linksOf (edges : List Edge) (labels : List String) : List (Nat × Nat × ℚ) :=
  edges.map (fun e => (posOf e.src labels, posOf e.tgt labels, e.val))

/-- The worked scenario of the spec: `[(A,B,100),(A,C,200),(B,D,50)]`. -/
def scenarioEdges : List Edge := [⟨"A", "B", 100⟩, ⟨"A", "C", 200⟩, ⟨"B", "D", 50⟩]

/-- A graph whose cycle `A → B → A` is reachable from the root `R`. -/
def cyclicEdges : List Edge := [⟨"R", "A", 1⟩, ⟨"A", "B", 1⟩, ⟨"B", "A", 1⟩]

/-- A graph whose tier-0 outflow is zero. -/
def zeroEdges : List Edge := [⟨"A", "B", 0⟩]

/-- A node (`B`) with exactly one inbound edge of value zero and a
nonzero outbound edge. -/
def zeroInboundEdges : List Edge := [⟨"A", "B", 0⟩, ⟨"B", "C", 5⟩]

/-- The guard of the propagation: the stored tier is `None` or strictly
below the proposal, so `assign_tier` keeps recursing. -/
def tierLt (o : Option Nat) (c : Nat) : Prop := o = none ∨ ∃ v, o = some v ∧ v < c

/-- Some edge row goes from `s` to `t`. -/
def EdgeRel (edges : List Edge) (s t : String) : Prop :=
  ∃ e ∈ edges, e.src = s ∧ e.tgt = t

/-- Reflexive-transitive reachability along edge rows. -/
inductive Reaches (edges : List Edge) : String → String → Prop where
  | refl (x : String) : Reaches edges x x
  | step {x y z : String} : EdgeRel edges x y → Reaches edges y z → Reaches edges x z

/-- Acyclicity: no edge closes a directed cycle. -/
def Acyclic (edges : List Edge) : Prop :=
  ∀ s t, EdgeRel edges s t → ¬ Reaches edges t s

/-- Tier assignments only grow during propagation. -/
def TMono (t t' : Tiers) : Prop :=
  ∀ x v, tget t x = some v → ∃ v', tget t' x = some v' ∧ v ≤ v'

/-- The tier invariant, relaxed on a protected source set `S`: along
every edge whose source is unprotected and carries a tier, the target
carries a strictly larger tier. -/
def GoodE (edges : List Edge) (S : String → Prop) (t : Tiers) : Prop :=
  ∀ e ∈ edges, ¬ S e.src → ∀ cs, tget t e.src = some cs →
    ∃ ct, tget t e.tgt = some ct ∧ cs < ct

/-- Postcondition of one successful `assign_tier(lbl, c)` call: the
label ends at tier at least `c`; tiers only grow; only nodes reachable
from `lbl` change; and the relaxed tier invariant is preserved for any
protected set unreachable from `lbl`. -/
def TPost (edges : List Edge) (lbl : String) (c : Nat) (t t' : Tiers) : Prop :=
  (∃ v, tget t' lbl = some v ∧ c ≤ v) ∧ TMono t t' ∧
  (∀ x, tget t' x ≠ tget t x → Reaches edges lbl x) ∧
  (∀ S : String → Prop, (∀ x, S x → ¬ Reaches edges lbl x) →
    GoodE edges S t → GoodE edges S t')

/-- Postcondition of a successful child (or root) loop at proposal `c`. -/
def TPostL (edges : List Edge) (l : List String) (c : Nat) (t t' : Tiers) : Prop :=
  (∀ ch ∈ l, ∃ v, tget t' ch = some v ∧ c ≤ v) ∧ TMono t t' ∧
  (∀ x, tget t' x ≠ tget t x → ∃ ch ∈ l, Reaches edges ch x) ∧
  (∀ S : String → Prop, (∀ x, S x → ∀ ch ∈ l, ¬ Reaches edges ch x) →
    GoodE edges S t → GoodE edges S t')

/-- Claim C2: on the edge list `[(A,B,100),(A,C,200),(B,D,50)]` the
pipeline produces nodes in builder order `[A,B,C,D]`, tiers
`A=0, B=1, C=1, D=2`, `maxTier = 2`, x-coordinates `[0, 1/2, 1/2, 1]`,
aggregated values `A = 300` (outbound fallback), `B = 100`, `D = 50`,
tier-0 total `300`, and in Percentages mode with one decimal place the
formatted value string of `D` is `"16.7%"`. -/
theorem scenario_pipeline :
    labelsOf scenarioEdges = ["A", "B", "C", "D"] ∧
    tierAt scenarioEdges 16 "A" = some 0 ∧
    tierAt scenarioEdges 16 "B" = some 1 ∧
    tierAt scenarioEdges 16 "C" = some 1 ∧
    tierAt scenarioEdges 16 "D" = some 2 ∧
    maxTierOpt scenarioEdges 16 = some 2 ∧
    xPosOf scenarioEdges 16 = some [0, 1/2, 1/2, 1] ∧
    aggValue scenarioEdges "A" = 300 ∧
    aggValue scenarioEdges "B" = 100 ∧
    aggValue scenarioEdges "D" = 50 ∧
    tier0SumAt scenarioEdges 16 = some 300 ∧
    pctTextAt scenarioEdges 16 1 "D" = some "16.7%" := by
  have hct : computeTiers scenarioEdges 16
      = some [("A", 0), ("B", 1), ("D", 2), ("C", 1)] := by decide
  have haggD : aggValue scenarioEdges "D" = 50 := by
    have h1 : scenarioEdges.filter (fun e => decide (e.tgt = "D")) = [⟨"B", "D", 50⟩] := rfl
    simp only [aggValue, inboundSum, sumVals, h1]
    norm_num
  have hts : tier0Sum scenarioEdges (labelsOf scenarioEdges)
      [("A", 0), ("B", 1), ("D", 2), ("C", 1)] = 300 := by
    have hf : scenarioEdges.filter
        (fun e => decide (e.src ∈
          tier0Nodes (labelsOf scenarioEdges) [("A", 0), ("B", 1), ("D", 2), ("C", 1)]))
        = [⟨"A", "B", 100⟩, ⟨"A", "C", 200⟩] := rfl
    simp only [tier0Sum, hf, sumVals]
    norm_num
  refine ⟨by decide, by decide, by decide, by decide, by decide, by decide,
    ?_, ?_, ?_, haggD, ?_, ?_⟩
  · have h1 : tierListOf scenarioEdges 16 = some [0, 1, 1, 2] := by decide
    have h2 : maxTierOpt scenarioEdges 16 = some 2 := by decide
    simp only [xPosOf, h1, h2]
    norm_num
  · have h1 : scenarioEdges.filter (fun e => decide (e.tgt = "A")) = [] := rfl
    have h2 : scenarioEdges.filter (fun e => decide (e.src = "A")) =
        [⟨"A", "B", 100⟩, ⟨"A", "C", 200⟩] := rfl
    simp only [aggValue, inboundSum, outboundSum, sumVals, h1, h2]
    norm_num
  · have h1 : scenarioEdges.filter (fun e => decide (e.tgt = "B")) = [⟨"A", "B", 100⟩] := rfl
    simp only [aggValue, inboundSum, sumVals, h1]
    norm_num
  · simp only [tier0SumAt, hct, hts]
  · have hpct : percentText 50 300 1 = "16.7%" := by
      have hd : pyDiv 50 300 = .num (50 / 300) := by
        simp only [pyDiv]
        norm_num
      have hfl : (⌊(50 / 300 * 100 * (10 : ℚ) ^ 1 : ℚ)⌋ : ℤ) = 166 := by norm_num
      have h167 : roundHalfEven ((50 / 300 : ℚ) * 100 * (10 : ℚ) ^ 1) = 167 := by
        simp only [roundHalfEven, hfl]
        norm_num
      simp only [percentText, hd, pyMul, pyFormatFixed, formatFixed, h167]
      decide
    simp only [pctTextAt, hct, haggD, hts, hpct]

/-- Claim C3, counterexample: node `B` of `[(A,B,0),(B,C,5)]` has
exactly one inbound edge, of value `0`, yet its aggregated value is `5`
(the `or` fallback switches to the outbound sum because the inbound sum
is falsy), not the inbound edge's value. -/
theorem aggValue_single_inbound_ce :
    (zeroInboundEdges.filter (fun e => decide (e.tgt = "B"))).map Edge.val = [0] ∧
    aggValue zeroInboundEdges "B" = 5 ∧ (5 : ℚ) ≠ 0 := by
  refine ⟨rfl, ?_, by norm_num⟩
  have h1 : zeroInboundEdges.filter (fun e => decide (e.tgt = "B")) = [⟨"A", "B", 0⟩] := rfl
  have h2 : zeroInboundEdges.filter (fun e => decide (e.src = "B")) = [⟨"B", "C", 5⟩] := rfl
  simp only [aggValue, inboundSum, outboundSum, sumVals, h1, h2]
  norm_num

/-- Claim C3, amended: for a node whose inbound row set is exactly one
edge of nonzero value, the aggregated value equals that edge's value. -/
theorem aggValue_single_inbound (edges : List Edge) (lbl : String) (e : Edge)
    (h : edges.filter (fun x => decide (x.tgt = lbl)) = [e]) (hv : e.val ≠ 0) :
    aggValue edges lbl = e.val := by
  simp only [aggValue, inboundSum, sumVals, h, List.map_cons, List.map_nil,
    List.sum_cons, List.sum_nil, add_zero]
  rw [if_neg hv]

/-- Witness for the amended C3 at the single edge `(A,B,7)`. -/
theorem aggValue_single_inbound_witness :
    ([⟨"A", "B", 7⟩] : List Edge).filter (fun x => decide (x.tgt = "B")) = [⟨"A", "B", 7⟩] ∧
    (Edge.val ⟨"A", "B", 7⟩ ≠ 0) ∧ aggValue [⟨"A", "B", 7⟩] "B" = 7 := by
  refine ⟨rfl, by norm_num, ?_⟩
  exact aggValue_single_inbound [⟨"A", "B", 7⟩] "B" ⟨"A", "B", 7⟩ rfl (by norm_num)

/-- Claim C4 evidence: on `[(A,B,0)]` the tier-0 total is `0`, and in
Percentages mode the engine computes `0/0` and emits the value string
`"nan%"` for node `B` — no formatting error is reported, contradicting
the requirement. -/
theorem zero_tier0_total_nan_label :
    tier0SumAt zeroEdges 8 = some 0 ∧ pctTextAt zeroEdges 8 1 "B" = some "nan%" := by
  have hct : computeTiers zeroEdges 8 = some [("A", 0), ("B", 1)] := by decide
  have hts : tier0Sum zeroEdges (labelsOf zeroEdges) [("A", 0), ("B", 1)] = 0 := by
    have hf : zeroEdges.filter
        (fun e => decide (e.src ∈ tier0Nodes (labelsOf zeroEdges) [("A", 0), ("B", 1)]))
        = [⟨"A", "B", 0⟩] := rfl
    simp only [tier0Sum, hf, sumVals]
    norm_num
  have hagg : aggValue zeroEdges "B" = 0 := by
    have h1 : zeroEdges.filter (fun e => decide (e.tgt = "B")) = [⟨"A", "B", 0⟩] := rfl
    have h2 : zeroEdges.filter (fun e => decide (e.src = "B")) = [] := rfl
    simp only [aggValue, inboundSum, outboundSum, sumVals, h1, h2]
    norm_num
  have hpct : percentText 0 0 1 = "nan%" := by
    simp only [percentText, pyDiv, pyMul, pyFormatFixed]
    norm_num
    rfl
  exact ⟨by simp only [tier0SumAt, hct, hts], by simp only [pctTextAt, hct, hagg, hts, hpct]⟩

/-- Claim C7: in Values mode the displayed value of every node is
`round(aggregatedValue / roundFactor) * roundFactor`; in particular for
the single edge `(X,Y,10)` with `roundFactor = 100` the rounded value of
`Y` is `0`. -/
theorem values_display_formula :
    (∀ (edges : List Edge) (rf : Nat) (u lbl : String),
        valuesText (aggValue edges lbl) rf u
          = commaFmtInt (roundHalfEven (aggValue edges lbl / (rf : ℚ)) * (rf : ℤ)) ++ " " ++ u) ∧
    displayedRounded (aggValue [⟨"X", "Y", 10⟩] "Y") 100 = 0 := by
  constructor
  · intro edges rf u lbl
    rfl
  · have hagg : aggValue [⟨"X", "Y", 10⟩] "Y" = 10 := by
      have h1 : ([⟨"X", "Y", 10⟩] : List Edge).filter (fun e => decide (e.tgt = "Y"))
          = [⟨"X", "Y", 10⟩] := rfl
      simp only [aggValue, inboundSum, sumVals, h1]
      norm_num
    rw [hagg]
    have hfl : ⌊(10 : ℚ) / ((100 : Nat) : ℚ)⌋ = 0 := by norm_num
    simp only [displayedRounded, roundHalfEven, hfl]
    norm_num

/-- Element of a mapped range at a valid index. -/
theorem getD_map_range {β : Type} (f : Nat → β) (d : β) {n i : Nat} (h : i < n) :
    ((List.range n).map f).getD i d = f i := by
  rw [List.getD_eq_getElem _ _ (by simpa using h), List.getElem_map, List.getElem_range]

/-- Element of a mapped list at a valid index. -/
theorem getD_map {α β : Type} (f : α → β) (l : List α) (d : β) (d' : α) {k : Nat}
    (h : k < l.length) :
    (l.map f).getD k d = f (l.getD k d') := by
  rw [List.getD_eq_getElem _ _ (by simpa using h), List.getElem_map,
    List.getD_eq_getElem _ _ h]

/-- Deduplication keeps every unseen element. -/
theorem mem_dedupFirst {x : String} : ∀ (seen l : List String), x ∈ l → x ∉ seen →
    x ∈ dedupFirst seen l := by
  intro seen l
  induction l generalizing seen with
  | nil => intro h; cases h
  | cons y ys ih =>
    intro hx hns
    rcases List.mem_cons.mp hx with rfl | hmem
    · rw [dedupFirst, if_neg hns]; exact List.mem_cons_self _ _
    · rw [dedupFirst]
      by_cases hy : y ∈ seen
      · rw [if_pos hy]; exact ih seen hmem hns
      · rw [if_neg hy]
        by_cases hxy : x = y
        · subst hxy; exact List.mem_cons_self _ _
        · exact List.mem_cons.mpr (Or.inr (ih (y :: seen) hmem (by
            intro hc; rcases List.mem_cons.mp hc with h | h; exact hxy h; exact hns h)))

/-- The source of every edge appears in the builder-ordered node list. -/
theorem src_mem_labels {e : Edge} {edges : List Edge} (h : e ∈ edges) :
    e.src ∈ labelsOf edges := by
  apply mem_dedupFirst _ _ _ (List.not_mem_nil _)
  unfold ravel
  exact List.mem_flatMap.mpr ⟨e, h, by simp⟩

/-- The target of every edge appears in the builder-ordered node list. -/
theorem tgt_mem_labels {e : Edge} {edges : List Edge} (h : e ∈ edges) :
    e.tgt ∈ labelsOf edges := by
  apply mem_dedupFirst _ _ _ (List.not_mem_nil _)
  unfold ravel
  exact List.mem_flatMap.mpr ⟨e, h, by simp⟩

/-- `label_idx` lookup followed by indexing returns the label itself. -/
theorem getD_posOf {a : String} : ∀ {l : List String}, a ∈ l → l.getD (posOf a l) "" = a := by
  intro l
  induction l with
  | nil => intro h; cases h
  | cons x xs ih =>
    intro hx
    rw [posOf]
    by_cases hxa : x = a
    · rw [if_pos hxa, List.getD_cons_zero]; exact hxa
    · rw [if_neg hxa, List.getD_cons_succ]
      exact ih (List.mem_cons.mp hx |>.resolve_left (fun h => hxa h.symm))

/-- Claim C9: the link list has one entry per edge row, in row order,
whose indices are the builder-order positions of the row's source and
target labels (and those positions point back at the very labels), and
whose value is the row's value. -/
theorem links_per_row (edges : List Edge) (k : Nat) (hk : k < edges.length) :
    (linksOf edges (labelsOf edges)).length = edges.length ∧
    (linksOf edges (labelsOf edges)).getD k (0, 0, 0) =
      (posOf (edges.getD k default).src (labelsOf edges),
       posOf (edges.getD k default).tgt (labelsOf edges),
       (edges.getD k default).val) ∧
    (labelsOf edges).getD (posOf (edges.getD k default).src (labelsOf edges)) ""
      = (edges.getD k default).src ∧
    (labelsOf edges).getD (posOf (edges.getD k default).tgt (labelsOf edges)) ""
      = (edges.getD k default).tgt := by
  have hmem : edges.getD k default ∈ edges := by
    rw [List.getD_eq_getElem _ _ hk]
    exact List.getElem_mem _
  refine ⟨List.length_map _ _, ?_, getD_posOf (src_mem_labels hmem),
    getD_posOf (tgt_mem_labels hmem)⟩
  unfold linksOf
  exact getD_map _ _ _ default hk

/-- Witness for C9 on a duplicate-row edge list: the second `(A,B)` row
yields its own link `(0, 1, 2)`. -/
theorem links_per_row_witness :
    (1 : Nat) < ([⟨"A", "B", 1⟩, ⟨"A", "B", 2⟩] : List Edge).length ∧
    (linksOf [⟨"A", "B", 1⟩, ⟨"A", "B", 2⟩]
        (labelsOf [⟨"A", "B", 1⟩, ⟨"A", "B", 2⟩])).getD 1 (0, 0, 0)
      = (0, 1, 2) := by
  refine ⟨by decide, ?_⟩
  have h := (links_per_row [⟨"A", "B", 1⟩, ⟨"A", "B", 2⟩] 1 (by decide)).2.1
  rw [h]
  rfl

/-- Claim C8: node `i` gets `palette[i % len(palette)]`, hence nodes `i`
and `i + len(palette)` get the identical color. -/
theorem color_cycling (palette : List String) (n : Nat) (hp : 0 < palette.length) :
    (∀ i, i < n → (nodeColors palette n).getD i "" = palette.getD (i % palette.length) "") ∧
    (∀ i, i + palette.length < n →
      (nodeColors palette n).getD (i + palette.length) ""
        = (nodeColors palette n).getD i "") := by
  have key : ∀ i, i < n →
      (nodeColors palette n).getD i "" = palette.getD (i % palette.length) "" := by
    intro i hi
    unfold nodeColors
    exact getD_map_range _ _ hi
  refine ⟨key, fun i hi => ?_⟩
  rw [key _ hi, key _ (by omega), Nat.add_mod_right]

/-- Witness for C8 on the default palette prefix: with a 2-color palette
and 5 nodes, nodes 1 and 3 share a color. -/
theorem color_cycling_witness :
    0 < (["#41484f", "#015651"] : List String).length ∧
    (nodeColors ["#41484f", "#015651"] 5).getD 3 ""
      = (nodeColors ["#41484f", "#015651"] 5).getD 1 "" := by
  exact ⟨by decide, (color_cycling ["#41484f", "#015651"] 5 (by decide)).2 1 (by decide)⟩

/-- Membership in a tier group. -/
theorem mem_groupIdx {tl : List Nat} {v i : Nat} :
    i ∈ groupIdx tl v ↔ i < tl.length ∧ tl.getD i 0 = v := by
  simp [groupIdx, List.mem_filter, List.mem_range]

/-- A tier group carries no duplicate index. -/
theorem nodup_groupIdx (tl : List Nat) (v : Nat) : (groupIdx tl v).Nodup :=
  (List.nodup_range _).filter _

/-- `posOfNat` inverts indexing on a duplicate-free list. -/
theorem posOfNat_getD : ∀ {l : List Nat}, l.Nodup → ∀ {j : Nat}, j < l.length →
    posOfNat (l.getD j 0) l = j := by
  intro l
  induction l with
  | nil => intro _ j hj; cases hj
  | cons x xs ih =>
    intro hnd j hj
    cases j with
    | zero => rw [List.getD_cons_zero, posOfNat, if_pos rfl]
    | succ j =>
      rw [List.getD_cons_succ, posOfNat]
      have hmem : xs.getD j 0 ∈ xs := by
        rw [List.getD_eq_getElem _ _ (by simpa using hj)]
        exact List.getElem_mem _
      have hne : x ≠ xs.getD j 0 := fun h => (List.nodup_cons.mp hnd).1 (h ▸ hmem)
      rw [if_neg hne, ih (List.nodup_cons.mp hnd).2 (by simpa using hj)]

/-- Every band has positive height `1 / (maxTier + 1)`. -/
theorem band_height (v m : Nat) : bandTop v m - bandBot v m = 1 / ((m : ℚ) + 1) := by
  unfold bandTop bandBot
  ring

/-- The within-band step of a tier holding at least two nodes is
strictly positive. -/
theorem stepOf_pos (v m : Nat) {cnt : Nat} (h2 : 2 ≤ cnt) : 0 < stepOf v m cnt := by
  have hb : bandTop v m - bandBot v m = 1 / ((m : ℚ) + 1) := band_height v m
  have htb : 0 < bandTop v m - bandBot v m := by rw [hb]; positivity
  have hc : (0 : ℚ) < (cnt : ℚ) - 1 := by
    have : (2 : ℚ) ≤ (cnt : ℚ) := by exact_mod_cast h2
    linarith
  unfold stepOf marginOf
  apply div_pos _ hc
  linarith

/-- Claim C6: vertical placement follows the band rule — a singleton
tier is centered at the band midpoint; a tier with `count > 1` nodes
places its `j`-th node (builder order) at `bottom + margin + j·step`;
consecutive y values differ by exactly `step`; and no two nodes of the
tier share a y value. -/
theorem y_band_rule (tl : List Nat) (m v : Nat) :
    (∀ i, groupIdx tl v = [i] → (yPos tl m).getD i 0 = (bandTop v m + bandBot v m) / 2) ∧
    (∀ j, 2 ≤ (groupIdx tl v).length → j < (groupIdx tl v).length →
      (yPos tl m).getD ((groupIdx tl v).getD j 0) 0
        = bandBot v m + marginOf v m + (j : ℚ) * stepOf v m (groupIdx tl v).length) ∧
    (∀ j, 2 ≤ (groupIdx tl v).length → j + 1 < (groupIdx tl v).length →
      (yPos tl m).getD ((groupIdx tl v).getD (j + 1) 0) 0
        - (yPos tl m).getD ((groupIdx tl v).getD j 0) 0
        = stepOf v m (groupIdx tl v).length) ∧
    (∀ j k, 2 ≤ (groupIdx tl v).length → j < (groupIdx tl v).length →
      k < (groupIdx tl v).length → j ≠ k →
      (yPos tl m).getD ((groupIdx tl v).getD j 0) 0
        ≠ (yPos tl m).getD ((groupIdx tl v).getD k 0) 0) := by
  have hb : ∀ j, 2 ≤ (groupIdx tl v).length → j < (groupIdx tl v).length →
      (yPos tl m).getD ((groupIdx tl v).getD j 0) 0
        = bandBot v m + marginOf v m + (j : ℚ) * stepOf v m (groupIdx tl v).length := by
    intro j h2 hj
    have hmem : (groupIdx tl v).getD j 0 ∈ groupIdx tl v := by
      rw [List.getD_eq_getElem _ _ hj]
      exact List.getElem_mem _
    obtain ⟨hlt, htl⟩ := mem_groupIdx.mp hmem
    rw [yPos, getD_map_range _ _ hlt, yAt]
    simp only [htl]
    rw [if_neg (by omega), posOfNat_getD (nodup_groupIdx tl v) hj]
  refine ⟨?_, hb, ?_, ?_⟩
  · intro i hg
    have hmem : i ∈ groupIdx tl v := by rw [hg]; exact List.mem_cons_self _ _
    obtain ⟨hlt, htl⟩ := mem_groupIdx.mp hmem
    rw [yPos, getD_map_range _ _ hlt, yAt]
    simp only [htl, hg]
    simp
  · intro j h2 hj1
    rw [hb (j + 1) h2 hj1, hb j h2 (by omega)]
    push_cast
    ring
  · intro j k h2 hj hk hjk
    rw [hb j h2 hj, hb k h2 hk]
    intro heq
    have hstep := stepOf_pos v m h2
    have : (j : ℚ) = (k : ℚ) :=
      mul_right_cancel₀ (ne_of_gt hstep)
        (by linarith : (j : ℚ) * stepOf v m (groupIdx tl v).length
          = (k : ℚ) * stepOf v m (groupIdx tl v).length)
    exact hjk (Nat.cast_injective this)

/-- Witness for C6 on tiers `[0, 1, 1]` with `maxTier = 1`: tier 0 is a
centered singleton, tier 1 starts at `bottom + margin`, and its two
nodes get distinct y values. -/
theorem y_band_rule_witness :
    groupIdx [0, 1, 1] 0 = [0] ∧ groupIdx [0, 1, 1] 1 = [1, 2] ∧
    (yPos [0, 1, 1] 1).getD 0 0 = (bandTop 0 1 + bandBot 0 1) / 2 ∧
    (yPos [0, 1, 1] 1).getD 1 0 = bandBot 1 1 + marginOf 1 1 + (0 : ℚ) * stepOf 1 1 2 ∧
    (yPos [0, 1, 1] 1).getD 2 0 ≠ (yPos [0, 1, 1] 1).getD 1 0 := by
  have hg : groupIdx [0, 1, 1] 1 = [1, 2] := by decide
  refine ⟨by decide, hg, (y_band_rule [0, 1, 1] 1 0).1 0 (by decide), ?_, ?_⟩
  · have h := (y_band_rule [0, 1, 1] 1 1).2.1 0 (by decide) (by decide)
    rw [hg] at h
    simpa using h
  · have h := (y_band_rule [0, 1, 1] 1 1).2.2.2 1 0 (by decide) (by decide) (by decide)
      (by decide)
    rw [hg] at h
    simpa using h

/-- Round half to even sends an exact half to the even neighbour. -/
theorem roundHalfEven_int_add_half (k : ℤ) :
    roundHalfEven ((k : ℚ) + 1/2) = if Even k then k else k + 1 := by
  have hfl : ⌊(k : ℚ) + 1/2⌋ = k := by
    rw [Int.floor_int_add]
    norm_num
  have hr : ((k : ℚ) + 1/2) - (k : ℚ) = 1/2 := by ring
  simp only [roundHalfEven, hfl, hr]
  rw [if_neg (by norm_num), if_neg (by norm_num)]
  by_cases hk : k % 2 = 0
  · rw [if_pos hk, if_pos (Int.even_iff.mpr hk)]
  · rw [if_neg hk, if_neg (fun h => hk (Int.even_iff.mp h))]

/-- Claim C10: the Values-mode rounding is round half to even: whenever
`aggregatedValue / roundFactor` is exactly halfway between `k` and
`k + 1`, the quotient rounds to the even neighbour. -/
theorem values_display_round_half_even (v : ℚ) (rf : Nat) (k : ℤ)
    (h : v / (rf : ℚ) = (k : ℚ) + 1/2) :
    displayedRounded v rf = (if Even k then k else k + 1) * (rf : ℤ) := by
  simp only [displayedRounded, h, roundHalfEven_int_add_half]

/-- Witness for C10: `50/100` rounds down to `0` and `150/100` rounds up
to `200`, both toward the even neighbour. -/
theorem values_display_round_half_even_witness :
    (50 : ℚ) / ((100 : Nat) : ℚ) = ((0 : ℤ) : ℚ) + 1/2 ∧ displayedRounded 50 100 = 0 ∧
    (150 : ℚ) / ((100 : Nat) : ℚ) = ((1 : ℤ) : ℚ) + 1/2 ∧ displayedRounded 150 100 = 200 := by
  refine ⟨by norm_num, ?_, by norm_num, ?_⟩
  · rw [values_display_round_half_even 50 100 0 (by norm_num)]
    decide
  · rw [values_display_round_half_even 150 100 1 (by norm_num)]
    decide

/-- Dict read after write at the same key. -/
theorem tget_tset_self : ∀ (t : Tiers) (k : String) (v : Nat), tget (tset t k v) k = some v := by
  intro t k v
  induction t with
  | nil => simp [tset, tget]
  | cons p rest ih =>
    by_cases h : p.1 = k
    · simp [tset, h, tget]
    · simp [tset, h, tget, ih]

/-- Dict read after write at a different key. -/
theorem tget_tset_ne : ∀ (t : Tiers) {k x : String} (v : Nat), x ≠ k →
    tget (tset t k v) x = tget t x := by
  intro t
  induction t with
  | nil =>
    intro k x v hx
    have hkx : ¬ (k = x) := fun h => hx h.symm
    simp [tset, tget, hkx]
  | cons p rest ih =>
    intro k x v hx
    by_cases h : p.1 = k
    · simp only [tset, if_pos h, tget]
      rw [if_neg (fun hkx => hx hkx.symm), if_neg (by rw [h]; exact fun hkx => hx hkx.symm)]
    · simp only [tset, if_neg h, tget]
      by_cases hpx : p.1 = x
      · rw [if_pos hpx, if_pos hpx]
      · rw [if_neg hpx, if_neg hpx, ih v hx]

/-- On the cyclic graph, a propagation visiting `A` or `B` below the
proposed tier exhausts any amount of fuel: each lap around the cycle
raises the proposal, so the guard never stops the recursion. -/
theorem cyc_no_fix : ∀ fuel : Nat,
    (∀ c t, tierLt (tget t "A") c → tierLt (tget t "B") (c+1) →
        assign_tier cyclicEdges fuel "A" c t = none) ∧
    (∀ c t, tierLt (tget t "B") c → tierLt (tget t "A") (c+1) →
        assign_tier cyclicEdges fuel "B" c t = none) := by
  intro fuel
  induction fuel with
  | zero => exact ⟨fun _ _ _ _ => rfl, fun _ _ _ _ => rfl⟩
  | succ n ih =>
    constructor
    · intro c t hA hB
      have hch : childrenOf cyclicEdges "A" = ["B"] := rfl
      have hrec : assign_tier cyclicEdges n "B" (c+1) (tset t "A" c) = none := by
        apply ih.2
        · rw [tget_tset_ne _ _ (by decide)]
          exact hB
        · rw [tget_tset_self]
          exact Or.inr ⟨c, rfl, by omega⟩
      rcases hA with h | ⟨v, hv, hlt⟩
      · simp only [assign_tier, h, hch, List.foldl_cons, List.foldl_nil, Option.bind, hrec]
      · simp only [assign_tier, hv, if_pos hlt, hch, List.foldl_cons, List.foldl_nil,
          Option.bind, hrec]
    · intro c t hB hA
      have hch : childrenOf cyclicEdges "B" = ["A"] := rfl
      have hrec : assign_tier cyclicEdges n "A" (c+1) (tset t "B" c) = none := by
        apply ih.1
        · rw [tget_tset_ne _ _ (by decide)]
          exact hA
        · rw [tget_tset_self]
          exact Or.inr ⟨c, rfl, by omega⟩
      rcases hB with h | ⟨v, hv, hlt⟩
      · simp only [assign_tier, h, hch, List.foldl_cons, List.foldl_nil, Option.bind, hrec]
      · simp only [assign_tier, hv, if_pos hlt, hch, List.foldl_cons, List.foldl_nil,
          Option.bind, hrec]

/-- Claim C5 evidence: on the edge list `[(R,A,1),(A,B,1),(B,A,1)]`,
whose cycle `A -> B -> A` is reachable from the root `R`, the tier
propagation of the source never terminates: it exhausts every finite
recursion budget, and the code raises no cyclic-graph error. -/
theorem assign_tier_cycle_diverges : ∀ fuel : Nat, computeTiers cyclicEdges fuel = none := by
  intro fuel
  have hroots : rootsOf cyclicEdges = ["R"] := rfl
  rw [computeTiers, hroots, List.foldl_cons, List.foldl_nil]
  show (Option.bind (some []) (assign_tier cyclicEdges fuel "R" 0)) = none
  rw [Option.bind]
  cases fuel with
  | zero => rfl
  | succ n =>
    have hch : childrenOf cyclicEdges "R" = ["A"] := rfl
    have hrec : assign_tier cyclicEdges n "A" 1 (tset [] "R" 0) = none := by
      apply (cyc_no_fix n).1
      · exact Or.inl rfl
      · exact Or.inl rfl
    simp only [assign_tier, tget, hch, List.foldl_cons, List.foldl_nil, Option.bind, hrec]

/-- A label is a child of `lbl` exactly when an edge row goes from
`lbl` to it. -/
theorem mem_childrenOf {edges : List Edge} {lbl ch : String} :
    ch ∈ childrenOf edges lbl ↔ EdgeRel edges lbl ch := by
  unfold childrenOf EdgeRel
  constructor
  · intro hch
    obtain ⟨e, he, htgt⟩ := List.mem_map.mp hch
    obtain ⟨hee, hsrc⟩ := List.mem_filter.mp he
    exact ⟨e, hee, of_decide_eq_true hsrc, htgt⟩
  · rintro ⟨e, he, hsrc, htgt⟩
    exact List.mem_map.mpr ⟨e, List.mem_filter.mpr ⟨he, decide_eq_true hsrc⟩, htgt⟩

/-- A failed propagation poisons the remaining sibling loop. -/
theorem foldl_bind_none (g : String → Tiers → Option Tiers) :
    ∀ l : List String, l.foldl (fun a ch => a.bind (g ch)) none = none := by
  intro l
  induction l with
  | nil => rfl
  | cons ch rest ih =>
    simp only [List.foldl_cons, Option.none_bind]
    exact ih

/-- A successful child (or root) loop satisfies `TPostL`: every child
reaches at least the proposed tier, tiers only grow, only nodes
reachable from some child change, and the relaxed invariant is kept. -/
theorem tier_chain (edges : List Edge) (fuel : Nat)
    (IH : ∀ lbl c t t', assign_tier edges fuel lbl c t = some t' → TPost edges lbl c t t') :
    ∀ (l : List String) (c : Nat) (t t' : Tiers),
      l.foldl (fun a ch => a.bind (assign_tier edges fuel ch c)) (some t) = some t' →
      TPostL edges l c t t' := by
  intro l
  induction l with
  | nil =>
    intro c t t' h
    simp only [List.foldl_nil] at h
    obtain rfl : t = t' := Option.some.inj h
    exact ⟨fun ch hch => absurd hch (List.not_mem_nil ch),
      fun x v hv => ⟨v, hv, le_refl v⟩,
      fun x hx => absurd rfl hx,
      fun S _ g => g⟩
  | cons ch rest ihl =>
    intro c t t' h
    rw [List.foldl_cons, Option.some_bind] at h
    cases h1 : assign_tier edges fuel ch c t with
    | none =>
      rw [h1, foldl_bind_none] at h
      cases h
    | some t1 =>
      rw [h1] at h
      obtain ⟨pl1, pm1, pr1, pg1⟩ := IH ch c t t1 h1
      obtain ⟨ql1, qm2, qr2, qg2⟩ := ihl c t1 t' h
      refine ⟨?_, ?_, ?_, ?_⟩
      · intro x hx
        rcases List.mem_cons.mp hx with rfl | hmem
        · obtain ⟨v, hv, hcv⟩ := pl1
          obtain ⟨v', hv', hvv'⟩ := qm2 x v hv
          exact ⟨v', hv', le_trans hcv hvv'⟩
        · exact ql1 x hmem
      · intro x v hv
        obtain ⟨v1, hv1, h1le⟩ := pm1 x v hv
        obtain ⟨v2, hv2, h2le⟩ := qm2 x v1 hv1
        exact ⟨v2, hv2, le_trans h1le h2le⟩
      · intro x hx
        by_cases hmid : tget t1 x = tget t x
        · have hne : tget t' x ≠ tget t1 x := by rw [hmid]; exact hx
          obtain ⟨ch', hch', hr⟩ := qr2 x hne
          exact ⟨ch', List.mem_cons.mpr (Or.inr hch'), hr⟩
        · exact ⟨ch, List.mem_cons_self _ _, pr1 x hmid⟩
      · intro S hS g
        have g1 := pg1 S (fun x hx => hS x hx ch (List.mem_cons_self _ _)) g
        exact qg2 S (fun x hx ch' hch' => hS x hx ch' (List.mem_cons.mpr (Or.inr hch'))) g1

/-- Main invariant of the propagation on an acyclic graph: a successful
`assign_tier` call satisfies `TPost`. -/
theorem assign_tier_post (edges : List Edge) (hacy : Acyclic edges) :
    ∀ (fuel : Nat) (lbl : String) (c : Nat) (t t' : Tiers),
      assign_tier edges fuel lbl c t = some t' → TPost edges lbl c t t' := by
  intro fuel
  induction fuel with
  | zero =>
    intro lbl c t t' h
    simp only [assign_tier] at h
    cases h
  | succ n ih =>
    intro lbl c t t' h
    have hset : tierLt (tget t lbl) c →
        (childrenOf edges lbl).foldl
          (fun a ch => a.bind (assign_tier edges n ch (c+1))) (some (tset t lbl c))
          = some t' →
        TPost edges lbl c t t' := by
      intro hguard hfold
      obtain ⟨plB, plM, plR, plG⟩ := tier_chain edges n ih _ _ _ _ hfold
      have hlbl1 : tget (tset t lbl c) lbl = some c := tget_tset_self t lbl c
      have hlbl' : tget t' lbl = some c := by
        by_cases hch : tget t' lbl = tget (tset t lbl c) lbl
        · rw [hch, hlbl1]
        · obtain ⟨ch, hchmem, hreach⟩ := plR lbl hch
          exact absurd hreach (hacy lbl ch (mem_childrenOf.mp hchmem))
      refine ⟨⟨c, hlbl', le_refl c⟩, ?_, ?_, ?_⟩
      · -- TMono t t'
        intro x v hv
        by_cases hx : x = lbl
        · subst hx
          rcases hguard with hnone | ⟨w, hw, hwc⟩
          · rw [hv] at hnone; cases hnone
          · rw [hv] at hw
            injection hw with hw'
            exact ⟨c, hlbl', by omega⟩
        · obtain ⟨v', hv', hle⟩ := plM x v (by rw [tget_tset_ne t c hx]; exact hv)
          exact ⟨v', hv', hle⟩
      · -- modified nodes are reachable from lbl
        intro x hx
        by_cases hx1 : tget t' x = tget (tset t lbl c) x
        · by_cases hxl : x = lbl
          · subst hxl; exact Reaches.refl x
          · have : tget (tset t lbl c) x ≠ tget t x := fun hc => hx (hx1.trans hc)
            exact absurd (tget_tset_ne t c hxl) this
        · obtain ⟨ch, hmem, hr⟩ := plR x hx1
          exact Reaches.step (mem_childrenOf.mp hmem) hr
      · -- GoodE preservation
        intro S hS g
        have hS' : ∀ x, (S x ∨ x = lbl) → ∀ ch ∈ childrenOf edges lbl,
            ¬ Reaches edges ch x := by
          rintro x (hx | rfl) ch hch hr
          · exact hS x hx (Reaches.step (mem_childrenOf.mp hch) hr)
          · exact hacy x ch (mem_childrenOf.mp hch) hr
        have g1 : GoodE edges (fun x => S x ∨ x = lbl) (tset t lbl c) := by
          intro e he hnot cs hcs
          have hnS : ¬ S e.src := fun hs => hnot (Or.inl hs)
          have hnl : e.src ≠ lbl := fun hs => hnot (Or.inr hs)
          rw [tget_tset_ne t c hnl] at hcs
          obtain ⟨ct, hct, hlt⟩ := g e he hnS cs hcs
          by_cases htl : e.tgt = lbl
          · refine ⟨c, by rw [htl]; exact hlbl1, ?_⟩
            rcases hguard with hnone | ⟨w, hw, hwc⟩
            · rw [htl] at hct; rw [hct] at hnone; cases hnone
            · rw [htl] at hct; rw [hct] at hw
              injection hw with hw'
              omega
          · rw [tget_tset_ne t c htl]
            exact ⟨ct, hct, hlt⟩
        have g2 := plG (fun x => S x ∨ x = lbl) hS' g1
        intro e he hnS cs hcs
        by_cases hsl : e.src = lbl
        · rw [hsl, hlbl'] at hcs
          injection hcs with hcs'
          have hchild : e.tgt ∈ childrenOf edges lbl := mem_childrenOf.mpr ⟨e, he, hsl, rfl⟩
          obtain ⟨v, hv, hcv⟩ := plB e.tgt hchild
          exact ⟨v, hv, by omega⟩
        · exact g2 e he (by rintro (hh | hh); exact hnS hh; exact hsl hh) cs hcs
    cases hgl : tget t lbl with
    | none =>
      simp only [assign_tier, hgl] at h
      exact hset (Or.inl hgl) h
    | some v =>
      by_cases hvc : v < c
      · simp only [assign_tier, hgl, if_pos hvc] at h
        exact hset (Or.inr ⟨v, hgl, hvc⟩) h
      · simp only [assign_tier, hgl, if_neg hvc] at h
        injection h with h'
        subst h'
        exact ⟨⟨v, hgl, Nat.le_of_not_lt hvc⟩,
          fun x w hw => ⟨w, hw, le_refl w⟩,
          fun x hx => absurd rfl hx,
          fun S _ g => g⟩

/-- After a successful root loop the full tier invariant holds and
every root carries a tier. -/
theorem computeTiers_post (edges : List Edge) (hacy : Acyclic edges) (fuel : Nat)
    (t' : Tiers) (h : computeTiers edges fuel = some t') :
    GoodE edges (fun _ => False) t' ∧ ∀ r ∈ rootsOf edges, ∃ v, tget t' r = some v := by
  unfold computeTiers at h
  obtain ⟨plB, _, _, plG⟩ :=
    tier_chain edges fuel (assign_tier_post edges hacy fuel) (rootsOf edges) 0 [] t' h
  constructor
  · refine plG (fun _ => False) (fun x hx => absurd hx (fun f => f)) ?_
    intro e he hns cs hcs
    simp only [tget] at hcs
    cases hcs
  · intro r hr
    obtain ⟨v, hv, _⟩ := plB r hr
    exact ⟨v, hv⟩

/-- Under the tier invariant, every node reachable from an assigned
node is assigned. -/
theorem reach_assigned {edges : List Edge} {t' : Tiers}
    (g : GoodE edges (fun _ => False) t') :
    ∀ {x y : String}, Reaches edges x y → ∀ {v : Nat}, tget t' x = some v →
      ∃ w, tget t' y = some w := by
  intro x y hr
  induction hr with
  | refl z => intro v hv; exact ⟨v, hv⟩
  | step hxy hyz ih =>
    intro v hv
    obtain ⟨e, he, hsrc, htgt⟩ := hxy
    obtain ⟨ct, hct, _⟩ := g e he (fun f => f) v (by rw [hsrc]; exact hv)
    exact ih (htgt ▸ hct)

/-- Claim C1: if the graph is acyclic and every node is reachable from
some root, then whenever the tier propagation terminates, every edge
`(s,t)` satisfies `tier(t) > tier(s)`, strictly. -/
theorem tier_strict_increase (edges : List Edge) (fuel : Nat) (t' : Tiers)
    (hacy : Acyclic edges)
    (hreach : ∀ l ∈ labelsOf edges, ∃ r ∈ rootsOf edges, Reaches edges r l)
    (hrun : computeTiers edges fuel = some t') :
    ∀ e ∈ edges, ∃ cs ct, tget t' e.src = some cs ∧ tget t' e.tgt = some ct ∧ cs < ct := by
  obtain ⟨g, hroots⟩ := computeTiers_post edges hacy fuel t' hrun
  intro e he
  obtain ⟨r, hr, hrch⟩ := hreach e.src (src_mem_labels he)
  obtain ⟨v0, hv0⟩ := hroots r hr
  obtain ⟨cs, hcs⟩ := reach_assigned g hrch hv0
  obtain ⟨ct, hct, hlt⟩ := g e he (fun f => f) cs hcs
  exact ⟨cs, ct, hcs, hct, hlt⟩

/-- A rank function increasing along the edges certifies acyclicity. -/
theorem acyclic_of_rank (edges : List Edge) (f : String → Nat)
    (h : ∀ e ∈ edges, f e.src < f e.tgt) : Acyclic edges := by
  have mono : ∀ {x y : String}, Reaches edges x y → f x ≤ f y := by
    intro x y hr
    induction hr with
    | refl z => exact le_refl _
    | step hxy hyz ih =>
      obtain ⟨e, he, hsrc, htgt⟩ := hxy
      have hlt := h e he
      rw [hsrc, htgt] at hlt
      omega
  intro s u hsu hr
  obtain ⟨e, he, hsrc, htgt⟩ := hsu
  have h1 := h e he
  rw [hsrc, htgt] at h1
  have h2 := mono hr
  omega

/-- Witness for C1 on the worked scenario graph. -/
theorem tier_strict_increase_witness :
    Acyclic scenarioEdges ∧
    (∀ l ∈ labelsOf scenarioEdges, ∃ r ∈ rootsOf scenarioEdges, Reaches scenarioEdges r l) ∧
    ∃ t', computeTiers scenarioEdges 16 = some t' ∧
      ∀ e ∈ scenarioEdges, ∃ cs ct, tget t' e.src = some cs ∧ tget t' e.tgt = some ct ∧
        cs < ct := by
  have hacy : Acyclic scenarioEdges :=
    acyclic_of_rank scenarioEdges
      (fun l => if l = "A" then 0 else if l = "D" then 2 else 1) (by decide)
  have m1 : (⟨"A", "B", 100⟩ : Edge) ∈ scenarioEdges := List.mem_cons_self _ _
  have m2 : (⟨"A", "C", 200⟩ : Edge) ∈ scenarioEdges :=
    List.mem_cons.mpr (Or.inr (List.mem_cons_self _ _))
  have m3 : (⟨"B", "D", 50⟩ : Edge) ∈ scenarioEdges :=
    List.mem_cons.mpr (Or.inr (List.mem_cons.mpr (Or.inr (List.mem_cons_self _ _))))
  have hroots : rootsOf scenarioEdges = ["A"] := by decide
  have hlabels : labelsOf scenarioEdges = ["A", "B", "C", "D"] := by decide
  have hreach : ∀ l ∈ labelsOf scenarioEdges, ∃ r ∈ rootsOf scenarioEdges,
      Reaches scenarioEdges r l := by
    intro l hl
    rw [hlabels] at hl
    rw [hroots]
    refine ⟨"A", List.mem_cons_self _ _, ?_⟩
    rcases List.mem_cons.mp hl with rfl | hl
    · exact Reaches.refl _
    rcases List.mem_cons.mp hl with rfl | hl
    · exact Reaches.step ⟨_, m1, rfl, rfl⟩ (Reaches.refl _)
    rcases List.mem_cons.mp hl with rfl | hl
    · exact Reaches.step ⟨_, m2, rfl, rfl⟩ (Reaches.refl _)
    rcases List.mem_cons.mp hl with rfl | hl
    · exact Reaches.step ⟨_, m1, rfl, rfl⟩ (Reaches.step ⟨_, m3, rfl, rfl⟩ (Reaches.refl _))
    · cases hl
  refine ⟨hacy, hreach, ?_⟩
  cases hct : computeTiers scenarioEdges 16 with
  | none => exact absurd hct (by decide)
  | some t' =>
    exact ⟨t', rfl, tier_strict_increase scenarioEdges 16 t' hacy hreach hct⟩

end Sankey
